import Mathlib

/-!
Verification of the attitude-dynamics simulation core
(`CubeSat_model.py`, `hysteresis_rod.py`, `adcsim/simulations/sim.py`).

Geometry (`Face2D`, `Face3D`, `CubeSat`) is embedded over `ℚ` (exact
arithmetic); the hysteresis rod and the attitude-parameter switching are
embedded over `ℝ` since they use transcendental functions.
-/

/-! ## 2D polygon faces (`Face2D` in `CubeSat_model.py`) -/

/-- One cross term `v[0,i]*v[1,i+1] - v[0,i+1]*v[1,i]` of the shoelace sums. -/
def cross2 (p q : ℚ × ℚ) : ℚ := p.1 * q.2 - q.1 * p.2

/-- The shoelace sum `Σ_i v[0,i]*v[1,i+1] - v[0,i+1]*v[1,i]` over consecutive
vertex pairs, as accumulated by the loops in `_polygon_area` /
`_polygon_centroid`. -/
def shoelace : List (ℚ × ℚ) → ℚ
  | p :: q :: rest => cross2 p q + shoelace (q :: rest)
  | _ => 0

/-- Source `Face2D._polygon_area`: `0.5 * Σ_i (x_i y_{i+1} - x_{i+1} y_i)`. -/
def polygon_area (v : List (ℚ × ℚ)) : ℚ := shoelace v / 2

/-- The `cx` accumulator of `Face2D._polygon_centroid`. -/
def centroid_sum_x : List (ℚ × ℚ) → ℚ
  | p :: q :: rest => (p.1 + q.1) * cross2 p q + centroid_sum_x (q :: rest)
  | _ => 0

/-- The `cy` accumulator of `Face2D._polygon_centroid`. -/
def centroid_sum_y : List (ℚ × ℚ) → ℚ
  | p :: q :: rest => (p.2 + q.2) * cross2 p q + centroid_sum_y (q :: rest)
  | _ => 0

/-- Source `Face2D._polygon_centroid`: `[cx, cy] / (6 * area)`.  The division is
unguarded in the source; over `ℚ` a zero divisor yields the junk value `0`. -/
def polygon_centroid (v : List (ℚ × ℚ)) : ℚ × ℚ :=
  (centroid_sum_x v / (6 * polygon_area v), centroid_sum_y v / (6 * polygon_area v))

/-- A `Face2D` object: the vertex ring together with the stored (cached)
derived fields and the physical coefficients. -/
structure Face2D where
  vertices : List (ℚ × ℚ)
  area : ℚ
  centroid : ℚ × ℚ
  sigma_n : ℚ
  sigma_t : ℚ
  reflection_coeff : ℚ
  deriving DecidableEq

/-- Source `Face2D.__init__`: stores the vertices and computes `_area` and
`_centroid` from them. -/
def Face2D.init (v : List (ℚ × ℚ)) (sigma_n sigma_t reflection_coeff : ℚ) : Face2D :=
  { vertices := v
    area := polygon_area v
    centroid := polygon_centroid v
    sigma_n := sigma_n
    sigma_t := sigma_t
    reflection_coeff := reflection_coeff }

/-- Source `Face2D.__add__` with an `ndarray` operand: translate every vertex and
rebuild the face (derived fields recomputed by the constructor). -/
def Face2D.addVec (f : Face2D) (w : ℚ × ℚ) : Face2D :=
  Face2D.init (f.vertices.map fun p => (p.1 + w.1, p.2 + w.2))
    f.sigma_n f.sigma_t f.reflection_coeff

/-- Source `Face2D.__sub__` with an `ndarray` operand. -/
def Face2D.subVec (f : Face2D) (w : ℚ × ℚ) : Face2D :=
  Face2D.init (f.vertices.map fun p => (p.1 - w.1, p.2 - w.2))
    f.sigma_n f.sigma_t f.reflection_coeff

/-- Source `Face2D.__add__` with a `Face2D` operand: concatenate the two rings and
re-close with the first vertex of the left operand. -/
def Face2D.addFace (f g : Face2D) : Face2D :=
  Face2D.init (f.vertices ++ g.vertices ++ f.vertices.take 1)
    f.sigma_n f.sigma_t f.reflection_coeff

/-- Source `Face2D.__sub__` with a `Face2D` operand: concatenate the left ring with
the right ring reversed (`other.vertices[:, ::-1]`), then re-close. -/
def Face2D.subFace (f g : Face2D) : Face2D :=
  Face2D.init (f.vertices ++ g.vertices.reverse ++ f.vertices.take 1)
    f.sigma_n f.sigma_t f.reflection_coeff

/-- Source `Face2D.__iadd__` with an `ndarray` operand: mutates `_vertices` in place
and returns `self`; the stored `_area` and `_centroid` are NOT recomputed. -/
def Face2D.iaddVec (f : Face2D) (w : ℚ × ℚ) : Face2D :=
  { f with vertices := f.vertices.map fun p => (p.1 + w.1, p.2 + w.2) }

/-- Source `Face2D.__iadd__` with a `Face2D` operand: replaces `_vertices` by the
concatenated ring; stored `_area` / `_centroid` are NOT recomputed. -/
def Face2D.iaddFace (f g : Face2D) : Face2D :=
  { f with vertices := f.vertices ++ g.vertices ++ f.vertices.take 1 }

/-- Source `Face2D.__isub__` with an `ndarray` operand: mutates `_vertices` only. -/
def Face2D.isubVec (f : Face2D) (w : ℚ × ℚ) : Face2D :=
  { f with vertices := f.vertices.map fun p => (p.1 - w.1, p.2 - w.2) }

/-- Source `Face2D.__isub__` with a `Face2D` operand: mutates `_vertices` only. -/
def Face2D.isubFace (f g : Face2D) : Face2D :=
  { f with vertices := f.vertices ++ g.vertices.reverse ++ f.vertices.take 1 }

/-! ### Shoelace lemmas -/

lemma cross2_antisymm (p q : ℚ × ℚ) : cross2 q p = -cross2 p q := by
  unfold cross2; ring

lemma shoelace_nil : shoelace [] = 0 := rfl

lemma shoelace_single (p : ℚ × ℚ) : shoelace [p] = 0 := rfl

lemma shoelace_cons_cons (p q : ℚ × ℚ) (l : List (ℚ × ℚ)) :
    shoelace (p :: q :: l) = cross2 p q + shoelace (q :: l) := rfl

/-- Shoelace sum of a concatenation: the sums of the parts plus the single
junction cross term. -/
lemma shoelace_append (l1 l2 : List (ℚ × ℚ)) (p q : ℚ × ℚ)
    (h1 : l1.getLast? = some p) (h2 : l2.head? = some q) :
    shoelace (l1 ++ l2) = shoelace l1 + cross2 p q + shoelace l2 := by
  induction l1 with
  | nil => simp at h1
  | cons x t ih =>
    cases t with
    | nil =>
      simp only [List.getLast?_singleton, Option.some.injEq] at h1
      subst h1
      cases l2 with
      | nil => simp at h2
      | cons y t2 =>
        simp only [List.head?_cons, Option.some.injEq] at h2
        subst h2
        simp [shoelace_cons_cons, shoelace_single]
    | cons y t' =>
      have hlast : (y :: t').getLast? = some p := by
        rwa [List.getLast?_cons_cons] at h1
      have := ih hlast
      simp only [List.cons_append, shoelace_cons_cons] at *
      rw [this]
      ring

/-- Reversing a ring negates its shoelace sum. -/
lemma shoelace_reverse (l : List (ℚ × ℚ)) : shoelace l.reverse = -shoelace l := by
  induction l with
  | nil => simp [shoelace_nil]
  | cons x t ih =>
    cases t with
    | nil => simp [shoelace_single]
    | cons y t' =>
      have hhead : (y :: t').reverse.getLast? = some y := by
        rw [List.getLast?_reverse]; rfl
      have happ := shoelace_append ((y :: t').reverse) [x] y x hhead rfl
      rw [List.reverse_cons, happ, ih, shoelace_single, shoelace_cons_cons,
        cross2_antisymm]
      ring

/-- Area of the `__sub__` ring: for closed rings (first vertex = last vertex)
the two junction cross terms cancel and the reversed inner ring contributes
its negated signed area. -/
lemma polygon_area_subFace (vA vB : List (ℚ × ℚ)) (a b : ℚ × ℚ)
    (hA1 : vA.head? = some a) (hA2 : vA.getLast? = some a)
    (hB1 : vB.head? = some b) (hB2 : vB.getLast? = some b) :
    polygon_area (vA ++ vB.reverse ++ vA.take 1)
      = polygon_area vA - polygon_area vB := by
  have hBne : vB ≠ [] := by intro h; subst h; simp at hB1
  have hBrevne : vB.reverse ≠ [] := by simpa using hBne
  cases vA with
  | nil => simp at hA1
  | cons x tA =>
    have hxa : a = x := by
      simp only [List.head?_cons, Option.some.injEq] at hA1
      exact hA1.symm
    subst hxa
    have htake : (a :: tA).take 1 = [a] := by simp
    rw [htake]
    have hrevhead : vB.reverse.head? = some b := by
      rw [List.head?_reverse]; exact hB2
    have hrevlast : vB.reverse.getLast? = some b := by
      rw [List.getLast?_reverse]; exact hB1
    have h1 : shoelace (a :: tA ++ vB.reverse)
        = shoelace (a :: tA) + cross2 a b + shoelace vB.reverse :=
      shoelace_append _ _ a b hA2 hrevhead
    have hlast2 : (a :: tA ++ vB.reverse).getLast? = some b := by
      rw [List.getLast?_append_of_ne_nil _ hBrevne]; exact hrevlast
    have h2 : shoelace ((a :: tA ++ vB.reverse) ++ [a])
        = shoelace (a :: tA ++ vB.reverse) + cross2 b a + shoelace [a] :=
      shoelace_append _ _ b a hlast2 rfl
    have hassoc : a :: tA ++ vB.reverse ++ [a] = (a :: tA ++ vB.reverse) ++ [a] := by
      simp [List.append_assoc]
    unfold polygon_area
    rw [hassoc, h2, h1, shoelace_reverse, shoelace_single, cross2_antisymm]
    ring

/-- C2: for closed rings, `area(A.__sub__(B)) = area(A) - area(B)`.
The strict-interiority hypothesis of the claim is not needed for the stored
area; ring closure of both operands suffices. -/
theorem c2_theorem (vA vB : List (ℚ × ℚ)) (a b : ℚ × ℚ)
    (snA stA rcA snB stB rcB : ℚ)
    (hA1 : vA.head? = some a) (hA2 : vA.getLast? = some a)
    (hB1 : vB.head? = some b) (hB2 : vB.getLast? = some b) :
    (Face2D.subFace (Face2D.init vA snA stA rcA) (Face2D.init vB snB stB rcB)).area
      = (Face2D.init vA snA stA rcA).area - (Face2D.init vB snB stB rcB).area := by
  show polygon_area (vA ++ vB.reverse ++ vA.take 1) = polygon_area vA - polygon_area vB
  exact polygon_area_subFace vA vB a b hA1 hA2 hB1 hB2

/-- The outer 4x4 square ring used in the repository's own example. -/
def bigSquare : List (ℚ × ℚ) := [(-2, -2), (2, -2), (2, 2), (-2, 2), (-2, -2)]

/-- The inner 2x2 square ring used in the repository's own example. -/
def littleSquare : List (ℚ × ℚ) := [(-1, -1), (1, -1), (1, 1), (-1, 1), (-1, -1)]

/-- C2 witness: the 4x4 square minus the interior 2x2 square has stored area
`16 - 4 = 12`. -/
theorem c2_witness :
    bigSquare.head? = some ((-2 : ℚ), (-2 : ℚ)) ∧
    bigSquare.getLast? = some ((-2 : ℚ), (-2 : ℚ)) ∧
    littleSquare.head? = some ((-1 : ℚ), (-1 : ℚ)) ∧
    littleSquare.getLast? = some ((-1 : ℚ), (-1 : ℚ)) ∧
    (Face2D.subFace (Face2D.init bigSquare (4/5) (4/5) (3/5))
        (Face2D.init littleSquare (4/5) (4/5) (3/5))).area
      = (Face2D.init bigSquare (4/5) (4/5) (3/5)).area
        - (Face2D.init littleSquare (4/5) (4/5) (3/5)).area :=
  ⟨rfl, rfl, rfl, rfl,
    c2_theorem bigSquare littleSquare (-2, -2) (-1, -1)
      (4/5) (4/5) (3/5) (4/5) (4/5) (3/5) rfl rfl rfl rfl⟩

/-- A 2x2 square with its lower-left corner at the origin; its centroid is
`(1, 1)`. -/
def unitishSquare : Face2D :=
  Face2D.init [(0, 0), (2, 0), (2, 2), (0, 2), (0, 0)] (4/5) (4/5) (3/5)

/-- C3: `__iadd__` with a vector translates `_vertices` in place but does NOT
recompute the stored `_area`/`_centroid`, so the stored centroid goes stale:
after shifting the square `unitishSquare` by `(1, 0)` the stored centroid is
still `(1, 1)` while the centroid of the current vertices is `(2, 1)`. -/
theorem c3_theorem :
    (unitishSquare.iaddVec (1, 0)).centroid = (1, 1) ∧
    polygon_centroid ((unitishSquare.iaddVec (1, 0)).vertices) = (2, 1) ∧
    (unitishSquare.iaddVec (1, 0)).centroid
      ≠ polygon_centroid ((unitishSquare.iaddVec (1, 0)).vertices) := by
  have h1 : (unitishSquare.iaddVec (1, 0)).centroid = (1, 1) := by
    norm_num [unitishSquare, Face2D.iaddVec, Face2D.init, polygon_centroid,
      polygon_area, centroid_sum_x, centroid_sum_y, shoelace, cross2]
  have h2 : polygon_centroid ((unitishSquare.iaddVec (1, 0)).vertices) = (2, 1) := by
    norm_num [unitishSquare, Face2D.iaddVec, Face2D.init, polygon_centroid,
      polygon_area, centroid_sum_x, centroid_sum_y, shoelace, cross2]
  refine ⟨h1, h2, ?_⟩
  rw [h1, h2]
  intro h
  exact absurd (congrArg Prod.fst h) (by norm_num)

/-- C8: both face-face combinators (`__add__` and `__sub__` with a `Face2D`
operand) carry the physical coefficients of the left operand; the right
operand's coefficients are discarded. -/
theorem c8_theorem (f g : Face2D) :
    (f.addFace g).sigma_n = f.sigma_n ∧
    (f.addFace g).sigma_t = f.sigma_t ∧
    (f.addFace g).reflection_coeff = f.reflection_coeff ∧
    (f.subFace g).sigma_n = f.sigma_n ∧
    (f.subFace g).sigma_t = f.sigma_t ∧
    (f.subFace g).reflection_coeff = f.reflection_coeff :=
  ⟨rfl, rfl, rfl, rfl, rfl, rfl⟩

/-- A degenerate closed ring with zero signed area. -/
def degenRing : List (ℚ × ℚ) := [(0, 0), (1, 1), (0, 0)]

/-- C9: a closed ring can have zero shoelace area, in which case the divisor
`6 * area` of the unguarded centroid formula is zero: constructing a `Face2D`
from `degenRing` divides by zero (over `ℚ` the junk quotient is `0`). -/
theorem c9_theorem :
    degenRing.head? = degenRing.getLast? ∧
    degenRing ≠ [] ∧
    polygon_area degenRing = 0 ∧
    6 * polygon_area degenRing = 0 ∧
    (Face2D.init degenRing (4/5) (4/5) (3/5)).centroid
      = (centroid_sum_x degenRing / 0, centroid_sum_y degenRing / 0) := by
  have harea : polygon_area degenRing = 0 := by
    norm_num [degenRing, polygon_area, shoelace, cross2]
  refine ⟨rfl, by simp [degenRing], harea, by rw [harea]; ring, ?_⟩
  show polygon_centroid degenRing = _
  rw [polygon_centroid, harea]
  norm_num

/-! ## 3-vectors and 3x3 matrices (numpy arrays in `CubeSat_model.py`) -/

/-- A 3-vector over a field. -/
structure Vec3 (K : Type) where
  x : K
  y : K
  z : K
  deriving DecidableEq

/-- A 3x3 matrix over a field, entry `mij` = row `i`, column `j`. -/
structure Mat3 (K : Type) where
  m11 : K
  m12 : K
  m13 : K
  m21 : K
  m22 : K
  m23 : K
  m31 : K
  m32 : K
  m33 : K
  deriving DecidableEq

/-- Vector addition. -/
def Vec3.add {K : Type} [Field K] (u v : Vec3 K) : Vec3 K :=
  ⟨u.x + v.x, u.y + v.y, u.z + v.z⟩

/-- Matrix-vector product (`@` on a numpy column vector). -/
def Mat3.mulVec {K : Type} [Field K] (M : Mat3 K) (v : Vec3 K) : Vec3 K :=
  ⟨M.m11 * v.x + M.m12 * v.y + M.m13 * v.z,
   M.m21 * v.x + M.m22 * v.y + M.m23 * v.z,
   M.m31 * v.x + M.m32 * v.y + M.m33 * v.z⟩

/-- Matrix product (`@` on two 3x3 numpy arrays). -/
def Mat3.mul {K : Type} [Field K] (A B : Mat3 K) : Mat3 K :=
  ⟨A.m11 * B.m11 + A.m12 * B.m21 + A.m13 * B.m31,
   A.m11 * B.m12 + A.m12 * B.m22 + A.m13 * B.m32,
   A.m11 * B.m13 + A.m12 * B.m23 + A.m13 * B.m33,
   A.m21 * B.m11 + A.m22 * B.m21 + A.m23 * B.m31,
   A.m21 * B.m12 + A.m22 * B.m22 + A.m23 * B.m32,
   A.m21 * B.m13 + A.m22 * B.m23 + A.m23 * B.m33,
   A.m31 * B.m11 + A.m32 * B.m21 + A.m33 * B.m31,
   A.m31 * B.m12 + A.m32 * B.m22 + A.m33 * B.m32,
   A.m31 * B.m13 + A.m32 * B.m23 + A.m33 * B.m33⟩

/-- Matrix sum. -/
def Mat3.add {K : Type} [Field K] (A B : Mat3 K) : Mat3 K :=
  ⟨A.m11 + B.m11, A.m12 + B.m12, A.m13 + B.m13,
   A.m21 + B.m21, A.m22 + B.m22, A.m23 + B.m23,
   A.m31 + B.m31, A.m32 + B.m32, A.m33 + B.m33⟩

/-- Scalar multiple of a matrix. -/
def Mat3.smul {K : Type} [Field K] (c : K) (A : Mat3 K) : Mat3 K :=
  ⟨c * A.m11, c * A.m12, c * A.m13,
   c * A.m21, c * A.m22, c * A.m23,
   c * A.m31, c * A.m32, c * A.m33⟩

/-- The identity matrix (`np.eye(3)`). -/
def Mat3.id {K : Type} [Field K] : Mat3 K := ⟨1, 0, 0, 0, 1, 0, 0, 0, 1⟩

/-! ## Oriented 3D faces (`Face3D` in `CubeSat_model.py`) -/

/-- A `Face3D` object: the 2D face, orientation matrix and translation, plus
the stored derived 3D fields. -/
structure Face3D where
  face : Face2D
  orientation : Mat3 ℚ
  translation : Vec3 ℚ
  vertices : List (Vec3 ℚ)
  area : ℚ
  centroid : Vec3 ℚ
  normal : Vec3 ℚ
  deriving DecidableEq

/-- Source `Face3D._set_face_positions`: embed the 2D data at local `z = 0`, rotate
vertices/centroid/normal by the orientation, then translate the vertices and
the centroid (the normal is not translated). -/
def Face3D.set_face_positions (f : Face3D) : Face3D :=
  { f with
    vertices := (f.face.vertices.map fun p => (⟨p.1, p.2, 0⟩ : Vec3 ℚ)).map
      fun v => (f.orientation.mulVec v).add f.translation
    area := f.face.area
    centroid := (f.orientation.mulVec ⟨f.face.centroid.1, f.face.centroid.2, 0⟩).add
      f.translation
    normal := f.orientation.mulVec ⟨0, 0, 1⟩ }

/-- The `face` property setter: store the new 2D face, then recompute all
derived fields. -/
def Face3D.setFace (f2 : Face2D) (f : Face3D) : Face3D :=
  Face3D.set_face_positions { f with face := f2 }

/-- The `orientation` property setter with an explicit matrix: store it, then
recompute all derived fields. -/
def Face3D.setOrientation (R : Mat3 ℚ) (f : Face3D) : Face3D :=
  Face3D.set_face_positions { f with orientation := R }

/-- The `translation` property setter: store the new translation, then
recompute all derived fields. -/
def Face3D.setTranslation (t : Vec3 ℚ) (f : Face3D) : Face3D :=
  Face3D.set_face_positions { f with translation := t }

/-- Source `Face3D.__init__`: starts from identity orientation and zero translation,
then runs the three property setters in order. -/
def Face3D.init (f2 : Face2D) (R : Mat3 ℚ) (t : Vec3 ℚ) : Face3D :=
  Face3D.setTranslation t (Face3D.setOrientation R (Face3D.setFace f2
    { face := f2
      orientation := Mat3.id
      translation := ⟨0, 0, 0⟩
      vertices := []
      area := 0
      centroid := ⟨0, 0, 0⟩
      normal := ⟨0, 0, 0⟩ }))

/-- The derived 3D fields of a `Face3D` are exactly the rotate-embed-translate
images of its current 2D face data. -/
def Face3D.derivedConsistent (g : Face3D) : Prop :=
  g.vertices = g.face.vertices.map
      (fun p => (g.orientation.mulVec ⟨p.1, p.2, 0⟩).add g.translation) ∧
  g.area = g.face.area ∧
  g.centroid = (g.orientation.mulVec ⟨g.face.centroid.1, g.face.centroid.2, 0⟩).add
      g.translation ∧
  g.normal = g.orientation.mulVec ⟨0, 0, 1⟩

/-- C5: after assigning any of `face`, `orientation` or `translation`, the
derived fields are the eager recomputation from the current attributes:
vertices = orientation applied to the 2D vertices embedded at z=0 plus the
translation, area = the 2D area, centroid = rotated embedded 2D centroid plus
translation, normal = orientation applied to the local +z unit vector. -/
theorem c5_theorem (f : Face3D) (f2 : Face2D) (R : Mat3 ℚ) (t : Vec3 ℚ) :
    (Face3D.setFace f2 f).derivedConsistent ∧
    (Face3D.setOrientation R f).derivedConsistent ∧
    (Face3D.setTranslation t f).derivedConsistent := by
  refine ⟨⟨?_, rfl, rfl, rfl⟩, ⟨?_, rfl, rfl, rfl⟩, ⟨?_, rfl, rfl, rfl⟩⟩ <;>
    simp [Face3D.setFace, Face3D.setOrientation, Face3D.setTranslation,
      Face3D.set_face_positions, Face3D.derivedConsistent, List.map_map,
      Function.comp]

/-! ## Body assembly (`CubeSat` in `CubeSat_model.py`) -/

/-- Determinant of a 3x3 matrix (cofactor expansion along the first row). -/
def Mat3.det {K : Type} [Field K] (M : Mat3 K) : K :=
  M.m11 * (M.m22 * M.m33 - M.m23 * M.m32)
    - M.m12 * (M.m21 * M.m33 - M.m23 * M.m31)
    + M.m13 * (M.m21 * M.m32 - M.m22 * M.m31)

/-- The inverse of a 3x3 matrix: transposed cofactor matrix divided by the
determinant. -/
def Mat3.inv {K : Type} [Field K] (M : Mat3 K) : Mat3 K :=
  Mat3.smul (1 / M.det)
    ⟨M.m22 * M.m33 - M.m23 * M.m32,
     M.m13 * M.m32 - M.m12 * M.m33,
     M.m12 * M.m23 - M.m13 * M.m22,
     M.m23 * M.m31 - M.m21 * M.m33,
     M.m11 * M.m33 - M.m13 * M.m31,
     M.m13 * M.m21 - M.m11 * M.m23,
     M.m21 * M.m32 - M.m22 * M.m31,
     M.m12 * M.m31 - M.m11 * M.m32,
     M.m11 * M.m22 - M.m12 * M.m21⟩

/-- Modelled from the spec: `np.linalg.inv` is an external collaborator; per
spec section 4.3 / 7, Body-assembly construction "fails with a
`SingularMatrix` error if the inertia tensor is not invertible", and otherwise
the exact inverse is returned.  `none` models the raised `SingularMatrix`
error. -/
def linalg_inv (M : Mat3 ℚ) : Option (Mat3 ℚ) :=
  if M.det = 0 then none else some M.inv

/-- A `CubeSat` object (`Polygons3D` with mass properties): faces, center of
mass, inertia tensor and its precomputed inverse. -/
structure CubeSat where
  faces : List Face3D
  com : Vec3 ℚ
  inertia : Mat3 ℚ
  inertia_inv : Mat3 ℚ

/-- Source `CubeSat.__init__`: stores faces, center of mass and the inertia tensor
and precomputes `_inertia_inv = np.linalg.inv(inertia)`; fails (with numpy's
singular-matrix error) when the tensor is not invertible. -/
def CubeSat.init (faces : List Face3D) (com : Vec3 ℚ) (inertia : Mat3 ℚ) :
    Option CubeSat :=
  (linalg_inv inertia).map fun Minv =>
    { faces := faces, com := com, inertia := inertia, inertia_inv := Minv }

lemma Mat3.det_mul (A B : Mat3 ℚ) : (A.mul B).det = A.det * B.det := by
  cases A; cases B
  simp only [Mat3.mul, Mat3.det]
  ring

lemma Mat3.det_id : (Mat3.id (K := ℚ)).det = 1 := by
  simp [Mat3.id, Mat3.det]

/-- For a nonzero determinant the cofactor inverse is a two-sided inverse. -/
lemma Mat3.inv_mul (M : Mat3 ℚ) (h : M.det ≠ 0) :
    M.inv.mul M = Mat3.id ∧ M.mul M.inv = Mat3.id := by
  cases M
  simp only [Mat3.det] at h
  constructor <;>
    · simp only [Mat3.inv, Mat3.mul, Mat3.smul, Mat3.det, Mat3.id, Mat3.mk.injEq]
      refine ⟨?_, ?_, ?_, ?_, ?_, ?_, ?_, ?_, ?_⟩ <;> (field_simp; ring)

/-- C7: `CubeSat` construction fails exactly when the inertia tensor has no
(two-sided) inverse; on success the stored tensor is the input and the stored
precomputed inverse is an exact two-sided inverse (so
`inertia_inv * inertia = identity`, within any tolerance). -/
theorem c7_theorem (faces : List Face3D) (com : Vec3 ℚ) (M : Mat3 ℚ) :
    (CubeSat.init faces com M = none ↔
      ¬∃ N : Mat3 ℚ, N.mul M = Mat3.id ∧ M.mul N = Mat3.id) ∧
    (∀ c : CubeSat, CubeSat.init faces com M = some c →
      c.inertia = M ∧ c.inertia_inv.mul c.inertia = Mat3.id ∧
        c.inertia.mul c.inertia_inv = Mat3.id) := by
  constructor
  · constructor
    · intro hnone hex
      obtain ⟨N, hN1, _⟩ := hex
      have hdet : M.det = 0 := by
        by_contra hd
        simp [CubeSat.init, linalg_inv, hd] at hnone
      have : N.det * M.det = 1 := by
        rw [← Mat3.det_mul, hN1, Mat3.det_id]
      rw [hdet, mul_zero] at this
      exact zero_ne_one this
    · intro hnoinv
      by_cases hd : M.det = 0
      · simp [CubeSat.init, linalg_inv, hd]
      · exact absurd ⟨M.inv, (Mat3.inv_mul M hd).1, (Mat3.inv_mul M hd).2⟩ hnoinv
  · intro c hc
    have hd : M.det ≠ 0 := by
      intro hd
      simp [CubeSat.init, linalg_inv, hd] at hc
    have hc' : c = { faces := faces, com := com, inertia := M, inertia_inv := M.inv } := by
      simp [CubeSat.init, linalg_inv, hd] at hc
      exact hc.symm
    subst hc'
    exact ⟨rfl, (Mat3.inv_mul M hd).1, (Mat3.inv_mul M hd).2⟩

/-- The inertia tensor `np.diag([8e-3, 8e-3, 2e-3])` used by the repository's
own simulation entry point. -/
def simInertia : Mat3 ℚ := ⟨8/1000, 0, 0, 0, 8/1000, 0, 0, 0, 2/1000⟩

/-- C7 witness: constructing a `CubeSat` from the simulation's diagonal
positive-definite inertia tensor succeeds and stores an exact inverse. -/
theorem c7_witness :
    CubeSat.init [] ⟨0, 0, 0⟩ simInertia
        = some { faces := [], com := ⟨0, 0, 0⟩, inertia := simInertia,
                 inertia_inv := simInertia.inv } ∧
    simInertia = simInertia ∧
    (Mat3.mul simInertia.inv simInertia = Mat3.id ∧
      Mat3.mul simInertia simInertia.inv = Mat3.id) := by
  have hsome : CubeSat.init [] ⟨0, 0, 0⟩ simInertia
      = some { faces := [], com := ⟨0, 0, 0⟩, inertia := simInertia,
               inertia_inv := simInertia.inv } := by
    have hd : simInertia.det ≠ 0 := by norm_num [simInertia, Mat3.det]
    simp [CubeSat.init, linalg_inv, hd]
  have h2 := (c7_theorem [] ⟨0, 0, 0⟩ simInertia).2
    { faces := [], com := ⟨0, 0, 0⟩, inertia := simInertia,
      inertia_inv := simInertia.inv } hsome
  exact ⟨hsome, h2.1, h2.2⟩

/-! ## Attitude-parameter (MRP) shadow-set switching (`ic.mrp_switching` in
`adcsim/simulations/sim.py`) -/

/-- Squared Euclidean magnitude of a 3-vector. -/
def Vec3.normSq (v : Vec3 ℝ) : ℝ := v.x * v.x + v.y * v.y + v.z * v.z

/-- Scalar multiple of a 3-vector. -/
def Vec3.smulV {K : Type} [Field K] (c : K) (v : Vec3 K) : Vec3 K :=
  ⟨c * v.x, c * v.y, c * v.z⟩

/-- Modelled from the spec: `integral_considerations.mrp_switching` (module
not under `src/`).  Per spec section 4.8, after each integrator step, "if the
attitude-parameter magnitude exceeds 1, replace it by its shadow set (negate
and divide by the squared magnitude)"; the angular velocity is untouched.
Magnitude exceeding 1 is expressed on squared magnitudes. -/
noncomputable def mrp_switching (s : Vec3 ℝ × Vec3 ℝ) : Vec3 ℝ × Vec3 ℝ :=
  if 1 < s.1.normSq then (Vec3.smulV (-(1 / s.1.normSq)) s.1, s.2) else s

/-- The cross-product (tilde) matrix of a 3-vector. -/
def crossMat (v : Vec3 ℝ) : Mat3 ℝ :=
  ⟨0, -v.z, v.y, v.z, 0, -v.x, -v.y, v.x, 0⟩

/-- Modelled from the spec: the rotation matrix represented by a
modified-Rodrigues-parameter vector (`transformations.mrp_to_dcm`, module not
under `src/`), the standard MRP direction-cosine-matrix formula
`I + (8 [σ~]^2 - 4 (1 - σ.σ) [σ~]) / (1 + σ.σ)^2`; "represents the identical
physical orientation" is stated as equality of these matrices. -/
noncomputable def mrp_to_dcm (v : Vec3 ℝ) : Mat3 ℝ :=
  Mat3.add Mat3.id
    (Mat3.smul (1 / (1 + v.normSq) ^ 2)
      (Mat3.add (Mat3.smul 8 ((crossMat v).mul (crossMat v)))
        (Mat3.smul (-(4 * (1 - v.normSq))) (crossMat v))))

lemma Vec3.normSq_nonneg (v : Vec3 ℝ) : 0 ≤ v.normSq := by
  simp only [Vec3.normSq]
  nlinarith [mul_self_nonneg v.x, mul_self_nonneg v.y, mul_self_nonneg v.z]

lemma Vec3.normSq_smulV (c : ℝ) (v : Vec3 ℝ) :
    (Vec3.smulV c v).normSq = c ^ 2 * v.normSq := by
  simp only [Vec3.smulV, Vec3.normSq]
  ring

lemma crossMat_smulV (c : ℝ) (v : Vec3 ℝ) :
    crossMat (Vec3.smulV c v) = Mat3.smul c (crossMat v) := by
  simp only [crossMat, Vec3.smulV, Mat3.smul, Mat3.mk.injEq]
  refine ⟨?_, ?_, ?_, ?_, ?_, ?_, ?_, ?_, ?_⟩ <;> ring_nf

lemma Mat3.smul_mul_smul (c d : ℝ) (A B : Mat3 ℝ) :
    (Mat3.smul c A).mul (Mat3.smul d B) = Mat3.smul (c * d) (A.mul B) := by
  cases A; cases B
  simp only [Mat3.smul, Mat3.mul, Mat3.mk.injEq]
  refine ⟨?_, ?_, ?_, ?_, ?_, ?_, ?_, ?_, ?_⟩ <;> ring

lemma Mat3.smul_smul (c d : ℝ) (A : Mat3 ℝ) :
    Mat3.smul c (Mat3.smul d A) = Mat3.smul (c * d) A := by
  cases A
  simp only [Mat3.smul, Mat3.mk.injEq]
  refine ⟨?_, ?_, ?_, ?_, ?_, ?_, ?_, ?_, ?_⟩ <;> ring

lemma Mat3.smul_add_mat (c : ℝ) (A B : Mat3 ℝ) :
    Mat3.smul c (A.add B) = (Mat3.smul c A).add (Mat3.smul c B) := by
  cases A; cases B
  simp only [Mat3.smul, Mat3.add, Mat3.mk.injEq]
  refine ⟨?_, ?_, ?_, ?_, ?_, ?_, ?_, ?_, ?_⟩ <;> ring

/-- The MRP rotation matrix, with the scalar coefficients of `[v~]^2` and
`[v~]` pulled out. -/
lemma mrp_to_dcm_expand (v : Vec3 ℝ) :
    mrp_to_dcm v = Mat3.add Mat3.id
      ((Mat3.smul (1 / (1 + v.normSq) ^ 2 * 8) ((crossMat v).mul (crossMat v))).add
        (Mat3.smul (1 / (1 + v.normSq) ^ 2 * -(4 * (1 - v.normSq))) (crossMat v))) := by
  rw [mrp_to_dcm, Mat3.smul_add_mat, Mat3.smul_smul, Mat3.smul_smul]

/-- The MRP rotation matrix of a scalar multiple of `v`, in the same form. -/
lemma mrp_to_dcm_scaled (c : ℝ) (v : Vec3 ℝ) :
    mrp_to_dcm (Vec3.smulV c v) = Mat3.add Mat3.id
      ((Mat3.smul (1 / (1 + c ^ 2 * v.normSq) ^ 2 * (8 * (c * c)))
          ((crossMat v).mul (crossMat v))).add
        (Mat3.smul (1 / (1 + c ^ 2 * v.normSq) ^ 2 * (-(4 * (1 - c ^ 2 * v.normSq)) * c))
          (crossMat v))) := by
  rw [mrp_to_dcm, Vec3.normSq_smulV, crossMat_smulV, Mat3.smul_mul_smul,
    Mat3.smul_smul, Mat3.smul_smul, Mat3.smul_add_mat, Mat3.smul_smul, Mat3.smul_smul]

/-- The MRP shadow set represents the same rotation matrix. -/
lemma mrp_to_dcm_shadow (v : Vec3 ℝ) (h : 1 < v.normSq) :
    mrp_to_dcm (Vec3.smulV (-(1 / v.normSq)) v) = mrp_to_dcm v := by
  have hs : v.normSq ≠ 0 := by nlinarith
  have h1s : 1 + v.normSq ≠ 0 := by nlinarith [v.normSq_nonneg]
  rw [mrp_to_dcm_scaled, mrp_to_dcm_expand]
  have hc1 : 1 / (1 + (-(1 / v.normSq)) ^ 2 * v.normSq) ^ 2 * (8 * (-(1 / v.normSq) * -(1 / v.normSq)))
      = 1 / (1 + v.normSq) ^ 2 * 8 := by
    field_simp
    ring
  have hc2 : 1 / (1 + (-(1 / v.normSq)) ^ 2 * v.normSq) ^ 2
        * (-(4 * (1 - (-(1 / v.normSq)) ^ 2 * v.normSq)) * -(1 / v.normSq))
      = 1 / (1 + v.normSq) ^ 2 * -(4 * (1 - v.normSq)) := by
    field_simp
    ring
  rw [hc1, hc2]

/-- C6: after the post-step switching, the attitude-parameter squared
magnitude is always at most 1; when the pre-switch squared magnitude exceeds
1, the vector is replaced by its shadow set (negated, divided by the squared
magnitude), the switched squared magnitude is the reciprocal of the original
(so the magnitude is the reciprocal magnitude), the represented rotation
matrix is unchanged, and the angular velocity is untouched. -/
theorem c6_theorem (v w : Vec3 ℝ) :
    (mrp_switching (v, w)).1.normSq ≤ 1 ∧
    (mrp_switching (v, w)).2 = w ∧
    (1 < v.normSq →
      (mrp_switching (v, w)).1 = Vec3.smulV (-(1 / v.normSq)) v ∧
      (mrp_switching (v, w)).1.normSq * v.normSq = 1 ∧
      mrp_to_dcm (mrp_switching (v, w)).1 = mrp_to_dcm v) := by
  by_cases h : 1 < v.normSq
  · have hs0 : v.normSq ≠ 0 := by nlinarith
    have hswitch : mrp_switching (v, w) = (Vec3.smulV (-(1 / v.normSq)) v, w) := by
      simp only [mrp_switching, h, if_pos]
    have hns : (Vec3.smulV (-(1 / v.normSq)) v).normSq = 1 / v.normSq := by
      rw [Vec3.normSq_smulV]
      field_simp
      ring
    refine ⟨?_, by rw [hswitch], fun _ => ⟨by rw [hswitch], ?_, ?_⟩⟩
    · rw [hswitch]
      simp only [hns]
      rw [div_le_one (by nlinarith)]
      nlinarith
    · rw [hswitch, hns]
      field_simp
    · rw [hswitch]
      exact mrp_to_dcm_shadow v h
  · have hswitch : mrp_switching (v, w) = (v, w) := by
      simp only [mrp_switching, h, if_neg, ite_false]
    exact ⟨by rw [hswitch]; exact le_of_not_lt h, by rw [hswitch], fun hc => absurd hc h⟩

/-- C6 witness: the concrete attitude parameter `(2, 0, 0)` (squared magnitude
4) is switched to `(-1/2, 0, 0)` with reciprocal squared magnitude and the
same rotation matrix. -/
theorem c6_witness :
    1 < (Vec3.mk (2:ℝ) 0 0).normSq ∧
    (mrp_switching (Vec3.mk (2:ℝ) 0 0, Vec3.mk (0:ℝ) 0 0)).1.normSq ≤ 1 ∧
    (mrp_switching (Vec3.mk (2:ℝ) 0 0, Vec3.mk (0:ℝ) 0 0)).1
      = Vec3.smulV (-(1 / (Vec3.mk (2:ℝ) 0 0).normSq)) (Vec3.mk (2:ℝ) 0 0) ∧
    (mrp_switching (Vec3.mk (2:ℝ) 0 0, Vec3.mk (0:ℝ) 0 0)).1.normSq
        * (Vec3.mk (2:ℝ) 0 0).normSq = 1 ∧
    mrp_to_dcm (mrp_switching (Vec3.mk (2:ℝ) 0 0, Vec3.mk (0:ℝ) 0 0)).1
      = mrp_to_dcm (Vec3.mk (2:ℝ) 0 0) := by
  have hmag : 1 < (Vec3.mk (2:ℝ) 0 0).normSq := by norm_num [Vec3.normSq]
  have h := c6_theorem (Vec3.mk (2:ℝ) 0 0) (Vec3.mk (0:ℝ) 0 0)
  exact ⟨hmag, h.1, (h.2.2 hmag).1, (h.2.2 hmag).2.1, (h.2.2 hmag).2.2⟩

/-! ## Hysteresis rod (`hysteresis_rod.py`) -/

/-- A `HysteresisRod` object: material parameters, the derived shape constant
`k`, and the mutable field/magnetization state.  The optional preallocated
history buffers `h`, `b` are represented by the scalar state: under the
sequential use in the source, `h[i]`/`b[i]` hold the current values
`h_current`/`b_current` from the previous call. -/
structure HysteresisRod where
  u0 : ℝ
  scale_factor : ℝ
  br : ℝ
  bs : ℝ
  hc : ℝ
  k : ℝ
  volume : ℝ
  mass : ℝ
  density : ℝ
  b_previous : ℝ
  h_previous : ℝ
  h_current : ℝ
  b_current : ℝ

/-- Source `HysteresisRod.__init__` with the default `volume=1`, `mass=1`,
`scale_factor=1e-5`: `u0 = 4*pi*1e-7` and the shape constant
`k = (1/hc) * tan(pi * br / 2 / bs)`. -/
noncomputable def HysteresisRod.init (br bs hc h_initial b_initial : ℝ) : HysteresisRod :=
  { u0 := 4 * Real.pi * (10 ^ 7)⁻¹
    scale_factor := (10 ^ 5)⁻¹
    br := br
    bs := bs
    hc := hc
    k := (1 / hc) * Real.tan (Real.pi * br / 2 / bs)
    volume := 1
    mass := 1
    density := 1 / 1
    b_previous := b_initial
    h_previous := h_initial
    h_current := h_initial
    b_current := b_initial }

/-- Source `HysteresisRod.b_field_top`: the descending/"top" limiting branch curve
`2*bs*arctan(k*(h + hc))/pi`. -/
noncomputable def HysteresisRod.b_field_top (r : HysteresisRod) (h : ℝ) : ℝ :=
  2 * r.bs * Real.arctan (r.k * (h + r.hc)) / Real.pi

/-- Source `HysteresisRod.b_field_bottom`: the ascending/"bottom" limiting branch
curve `2*bs*arctan(k*(h - hc))/pi`. -/
noncomputable def HysteresisRod.b_field_bottom (r : HysteresisRod) (h : ℝ) : ℝ :=
  2 * r.bs * Real.arctan (r.k * (h - r.hc)) / Real.pi

/-- Source `HysteresisRod.b_field_top_derivative`. -/
noncomputable def HysteresisRod.b_field_top_derivative (r : HysteresisRod) (h : ℝ) : ℝ :=
  2 * r.bs * r.k / (1 + (h + r.hc) ^ 2 * r.k ^ 2) / Real.pi

/-- Source `HysteresisRod.b_field_bottom_derivative`. -/
noncomputable def HysteresisRod.b_field_bottom_derivative (r : HysteresisRod) (h : ℝ) : ℝ :=
  2 * r.bs * r.k / (1 + (h - r.hc) ^ 2 * r.k ^ 2) / Real.pi

/-- Source `HysteresisRod.mag_process_positive_h`: the differential-permeability law
used for an increasing field. -/
noncomputable def HysteresisRod.mag_process_positive_h (r : HysteresisRod) (h b : ℝ) : ℝ :=
  r.u0 + (r.b_field_top h - b) * (r.b_field_bottom_derivative h - r.u0)
    / (r.b_field_top h - r.b_field_bottom h)

/-- Source `HysteresisRod.mag_process_negative_h`: the differential-permeability law
used for a decreasing field. -/
noncomputable def HysteresisRod.mag_process_negative_h (r : HysteresisRod) (h b : ℝ) : ℝ :=
  r.u0 + (b - r.b_field_bottom h) * (r.b_field_top_derivative h - r.u0)
    / (r.b_field_top h - r.b_field_bottom h)

/-- Modelled from the spec: `integrators.rk4_general` (module not under
`src/`), the generic fixed-step classical 4-stage Runge-Kutta single-step
operator of spec section 4.7, with the argument order of the call sites
`rk4_general(fn, step, t, y)`. -/
noncomputable def rk4_general (f : ℝ → ℝ → ℝ) (dt t y : ℝ) : ℝ :=
  let k1 := f t y
  let k2 := f (t + dt / 2) (y + dt * k1 / 2)
  let k3 := f (t + dt / 2) (y + dt * k2 / 2)
  let k4 := f (t + dt) (y + dt * k3)
  y + dt / 6 * (k1 + 2 * k2 + 2 * k3 + k4)

/-- Source `HysteresisRod.propagate_magnetization`: shift the field/magnetization
history, then advance the magnetization by one `rk4_general` step over the
field interval, choosing the branch formula by the sign of the field
change (`>=` picks the increasing-field formula). -/
noncomputable def HysteresisRod.propagate_magnetization (r : HysteresisRod) (h : ℝ) :
    HysteresisRod :=
  { r with
    h_current := h
    h_previous := r.h_current
    b_previous := r.b_current
    b_current :=
      if h ≥ r.h_current then
        rk4_general r.mag_process_positive_h (h - r.h_current) h r.b_current
      else
        rk4_general r.mag_process_negative_h (h - r.h_current) h r.b_current }

/-- Source `HysteresisRod.propagate_and_save_magnetization`: the buffered variant;
the new magnetization is a single explicit first-order (Euler) update
`b[i] + mag_process(h[i+1], b[i]) * step`, with the same branch choice. -/
noncomputable def HysteresisRod.propagate_and_save_magnetization (r : HysteresisRod)
    (h : ℝ) : HysteresisRod :=
  { r with
    h_current := h
    b_current :=
      if h ≥ r.h_current then
        r.b_current + r.mag_process_positive_h h r.b_current * (h - r.h_current)
      else
        r.b_current + r.mag_process_negative_h h r.b_current * (h - r.h_current) }

/-- C4: the branch formula depends only on the sign of (new field - previous
field): `mag_process_positive_h` when the new field is `>=` the previous one,
`mag_process_negative_h` otherwise; `propagate_magnetization` advances the
magnetization by one Runge-Kutta (`rk4_general`) step over the field
interval, while `propagate_and_save_magnetization` uses a single explicit
first-order Euler update. -/
theorem c4_theorem (r : HysteresisRod) (h : ℝ) :
    (r.h_current ≤ h →
      (r.propagate_magnetization h).b_current
        = rk4_general r.mag_process_positive_h (h - r.h_current) h r.b_current) ∧
    (h < r.h_current →
      (r.propagate_magnetization h).b_current
        = rk4_general r.mag_process_negative_h (h - r.h_current) h r.b_current) ∧
    (r.h_current ≤ h →
      (r.propagate_and_save_magnetization h).b_current
        = r.b_current + r.mag_process_positive_h h r.b_current * (h - r.h_current)) ∧
    (h < r.h_current →
      (r.propagate_and_save_magnetization h).b_current
        = r.b_current + r.mag_process_negative_h h r.b_current * (h - r.h_current)) := by
  refine ⟨fun hge => ?_, fun hlt => ?_, fun hge => ?_, fun hlt => ?_⟩
  · show (if h ≥ r.h_current then _ else _) = _
    rw [if_pos hge]
  · show (if h ≥ r.h_current then _ else _) = _
    rw [if_neg (not_le.mpr hlt)]
  · show (if h ≥ r.h_current then _ else _) = _
    rw [if_pos hge]
  · show (if h ≥ r.h_current then _ else _) = _
    rw [if_neg (not_le.mpr hlt)]

/-- A concrete rod (`br=1`, `bs=2`, `hc=1`, initial state `(0, 0)`). -/
noncomputable def sampleRod : HysteresisRod := HysteresisRod.init 1 2 1 0 0

/-- C4 witness: on the concrete rod, a rising field step uses the RK4 /
Euler update with the increasing-field formula, and a falling step the
decreasing-field formula. -/
theorem c4_witness :
    (sampleRod.propagate_magnetization 1).b_current
      = rk4_general sampleRod.mag_process_positive_h (1 - sampleRod.h_current) 1
          sampleRod.b_current ∧
    (sampleRod.propagate_magnetization (-1)).b_current
      = rk4_general sampleRod.mag_process_negative_h (-1 - sampleRod.h_current) (-1)
          sampleRod.b_current ∧
    (sampleRod.propagate_and_save_magnetization 1).b_current
      = sampleRod.b_current
        + sampleRod.mag_process_positive_h 1 sampleRod.b_current * (1 - sampleRod.h_current) ∧
    (sampleRod.propagate_and_save_magnetization (-1)).b_current
      = sampleRod.b_current
        + sampleRod.mag_process_negative_h (-1) sampleRod.b_current
            * (-1 - sampleRod.h_current) :=
  ⟨(c4_theorem sampleRod 1).1 (by norm_num [sampleRod, HysteresisRod.init]),
   (c4_theorem sampleRod (-1)).2.1 (by norm_num [sampleRod, HysteresisRod.init]),
   (c4_theorem sampleRod 1).2.2.1 (by norm_num [sampleRod, HysteresisRod.init]),
   (c4_theorem sampleRod (-1)).2.2.2 (by norm_num [sampleRod, HysteresisRod.init])⟩

/-- C10: with `0 < br < bs` and `0 < hc`, the derived shape constant makes
the limiting branch curves pass through the remanence points at zero field:
`b_field_top(0) = br` and `b_field_bottom(0) = -br`. -/
theorem c10_theorem (br bs hc h0 b0 : ℝ) (h1 : 0 < br) (h2 : br < bs) (h3 : 0 < hc) :
    (HysteresisRod.init br bs hc h0 b0).b_field_top 0 = br ∧
    (HysteresisRod.init br bs hc h0 b0).b_field_bottom 0 = -br := by
  have hbs : 0 < bs := h1.trans h2
  have hθeq : Real.pi * br / 2 / bs = Real.pi / 2 * (br / bs) := by ring
  have hθpos : 0 < Real.pi * br / 2 / bs := by positivity
  have hθlt : Real.pi * br / 2 / bs < Real.pi / 2 := by
    rw [hθeq]
    calc Real.pi / 2 * (br / bs) < Real.pi / 2 * 1 := by
          exact mul_lt_mul_of_pos_left ((div_lt_one hbs).mpr h2) (by positivity)
      _ = Real.pi / 2 := mul_one _
  have hktop : (HysteresisRod.init br bs hc h0 b0).k * (0 + hc)
      = Real.tan (Real.pi * br / 2 / bs) := by
    show 1 / hc * Real.tan (Real.pi * br / 2 / bs) * (0 + hc) = _
    field_simp
  have hkbot : (HysteresisRod.init br bs hc h0 b0).k * (0 - hc)
      = -Real.tan (Real.pi * br / 2 / bs) := by
    show 1 / hc * Real.tan (Real.pi * br / 2 / bs) * (0 - hc) = _
    field_simp
  constructor
  · show 2 * bs * Real.arctan ((HysteresisRod.init br bs hc h0 b0).k * (0 + hc))
        / Real.pi = br
    rw [hktop, Real.arctan_tan (by linarith [Real.pi_pos]) hθlt]
    field_simp
  · show 2 * bs * Real.arctan ((HysteresisRod.init br bs hc h0 b0).k * (0 - hc))
        / Real.pi = -br
    rw [hkbot, Real.arctan_neg,
      Real.arctan_tan (by linarith [Real.pi_pos]) hθlt]
    field_simp
    ring

/-- C10 witness: at `br=1`, `bs=2`, `hc=1` the branch curves meet the
vertical axis at the remanence values `1` and `-1`. -/
theorem c10_witness :
    (0:ℝ) < 1 ∧ (1:ℝ) < 2 ∧ (0:ℝ) < 1 ∧
    (HysteresisRod.init 1 2 1 0 0).b_field_top 0 = 1 ∧
    (HysteresisRod.init 1 2 1 0 0).b_field_bottom 0 = -1 := by
  have h := c10_theorem 1 2 1 0 0 (by norm_num) (by norm_num) (by norm_num)
  exact ⟨by norm_num, by norm_num, by norm_num, h.1, h.2⟩

/-! ## C1: the band invariant of the hysteresis rod -/

lemma arctan_le_self (y : ℝ) (hy : 0 ≤ y) : Real.arctan y ≤ y := by
  have h1 : 0 ≤ Real.arctan y := by
    have := Real.arctan_strictMono.monotone hy
    rwa [Real.arctan_zero] at this
  have h2 := Real.le_tan h1 (Real.arctan_lt_pi_div_two y)
  rwa [Real.tan_arctan] at h2

/-- The concrete rod `br = pi/4`, `bs = pi/2`, `hc = 1`, initial state
`(h, b) = (0, 0)`; its shape constant is `k = tan(pi/4) = 1`, so its branch
curves are plain arctangents. -/
noncomputable def rodC : HysteresisRod :=
  HysteresisRod.init (Real.pi / 4) (Real.pi / 2) 1 0 0

lemma rodC_k : rodC.k = 1 := by
  show 1 / 1 * Real.tan (Real.pi * (Real.pi / 4) / 2 / (Real.pi / 2)) = 1
  have harg : Real.pi * (Real.pi / 4) / 2 / (Real.pi / 2) = Real.pi / 4 := by
    field_simp
    ring
  rw [harg, Real.tan_pi_div_four]
  norm_num

lemma rodC_top (h : ℝ) : rodC.b_field_top h = Real.arctan (h + 1) := by
  show 2 * (Real.pi / 2) * Real.arctan (rodC.k * (h + 1)) / Real.pi = _
  rw [rodC_k, one_mul, div_eq_iff Real.pi_ne_zero]
  ring

lemma rodC_bottom (h : ℝ) : rodC.b_field_bottom h = Real.arctan (h - 1) := by
  show 2 * (Real.pi / 2) * Real.arctan (rodC.k * (h - 1)) / Real.pi = _
  rw [rodC_k, one_mul, div_eq_iff Real.pi_ne_zero]
  ring

lemma rodC_bottomDeriv (h : ℝ) :
    rodC.b_field_bottom_derivative h = 1 / (1 + (h - 1) ^ 2) := by
  show 2 * (Real.pi / 2) * rodC.k / (1 + (h - 1) ^ 2 * rodC.k ^ 2) / Real.pi
      = 1 / (1 + (h - 1) ^ 2)
  rw [rodC_k]
  have hd : (1:ℝ) + (h - 1) ^ 2 ≠ 0 := by positivity
  field_simp
  ring

/-- C1 counterexample: the band invariant does not hold for every field
sequence.  Starting from the valid state `(h, b) = (0, 0)` (which lies
between the branch curves), a single `propagate_and_save_magnetization` call
with field `10^6` drives the magnetization below the bottom branch curve by
more than 1 (in fact by more than `10^5`), so the claimed invariant fails
for any reasonable tolerance. -/
theorem c1_counterexample :
    rodC.b_field_bottom rodC.h_current ≤ rodC.b_current ∧
    rodC.b_current ≤ rodC.b_field_top rodC.h_current ∧
    (rodC.propagate_and_save_magnetization (10 ^ 6)).b_current
      < (rodC.propagate_and_save_magnetization (10 ^ 6)).b_field_bottom
          ((rodC.propagate_and_save_magnetization (10 ^ 6)).h_current) - 1 := by
  have e1 : rodC.h_current = 0 := rfl
  have e2 : rodC.b_current = 0 := rfl
  refine ⟨?_, ?_, ?_⟩
  · rw [e1, e2, rodC_bottom, show (0:ℝ) - 1 = -1 by norm_num, Real.arctan_neg,
      Real.arctan_one]
    linarith [Real.pi_pos]
  · rw [e1, e2, rodC_top, show (0:ℝ) + 1 = 1 by norm_num, Real.arctan_one]
    linarith [Real.pi_pos]
  · have hcond : (10:ℝ) ^ 6 ≥ rodC.h_current := by rw [e1]; norm_num
    have hh1 : (rodC.propagate_and_save_magnetization (10 ^ 6)).h_current
        = (10:ℝ) ^ 6 := rfl
    have hbotfun : (rodC.propagate_and_save_magnetization (10 ^ 6)).b_field_bottom
        = rodC.b_field_bottom := rfl
    have hb1 : (rodC.propagate_and_save_magnetization (10 ^ 6)).b_current
        = rodC.b_current + rodC.mag_process_positive_h (10 ^ 6) rodC.b_current
            * ((10:ℝ) ^ 6 - rodC.h_current) := by
      simp only [HysteresisRod.propagate_and_save_magnetization]
      rw [if_pos hcond]
    rw [hb1, hh1, hbotfun, e1, e2, rodC_bottom]
    have hm : rodC.mag_process_positive_h ((10:ℝ) ^ 6) 0
        = rodC.u0 + (Real.arctan ((10:ℝ) ^ 6 + 1) - 0)
            * (1 / (1 + ((10:ℝ) ^ 6 - 1) ^ 2) - rodC.u0)
            / (Real.arctan ((10:ℝ) ^ 6 + 1) - Real.arctan ((10:ℝ) ^ 6 - 1)) := by
      unfold HysteresisRod.mag_process_positive_h
      rw [rodC_top, rodC_bottom, rodC_bottomDeriv]
    rw [hm]
    simp only [sub_zero, zero_add]
    -- numeric bounds on u0 = 4*pi*1e-7
    have hu : rodC.u0 = 4 * Real.pi * ((10:ℝ) ^ 7)⁻¹ := rfl
    have hπ3 := Real.pi_gt_three
    have hπ4 := Real.pi_lt_d2
    have hu_lo : (12:ℝ) / 10 ^ 7 ≤ rodC.u0 := by
      have h1 : (12:ℝ) ≤ 4 * Real.pi := by linarith
      calc (12:ℝ) / 10 ^ 7 = 12 * ((10:ℝ) ^ 7)⁻¹ := by ring
        _ ≤ 4 * Real.pi * ((10:ℝ) ^ 7)⁻¹ :=
            mul_le_mul_of_nonneg_right h1 (by positivity)
        _ = rodC.u0 := hu.symm
    have hu_hi : rodC.u0 ≤ (126:ℝ) / 10 ^ 8 := by
      have h2 : 4 * Real.pi ≤ (126:ℝ) / 10 := by linarith
      calc rodC.u0 = 4 * Real.pi * ((10:ℝ) ^ 7)⁻¹ := hu
        _ ≤ ((126:ℝ) / 10) * ((10:ℝ) ^ 7)⁻¹ :=
            mul_le_mul_of_nonneg_right h2 (by positivity)
        _ = (126:ℝ) / 10 ^ 8 := by ring
    set A := Real.arctan ((10:ℝ) ^ 6 + 1) with hAdef
    set B := Real.arctan ((10:ℝ) ^ 6 - 1) with hBdef
    -- bounds on the arctangent values
    have hA_lt : A < Real.pi / 2 := Real.arctan_lt_pi_div_two _
    have hA_ge : Real.pi / 4 ≤ A := by
      have hmono := Real.arctan_strictMono.monotone
        (show (1:ℝ) ≤ (10:ℝ) ^ 6 + 1 by norm_num)
      rwa [Real.arctan_one] at hmono
    have hA34 : (3:ℝ) / 4 ≤ A := by linarith
    have hB0 : 0 ≤ B := by
      have hmono := Real.arctan_strictMono.monotone
        (show (0:ℝ) ≤ (10:ℝ) ^ 6 - 1 by norm_num)
      rwa [Real.arctan_zero] at hmono
    have hBA : B < A :=
      Real.arctan_strictMono (show ((10:ℝ) ^ 6 - 1) < (10:ℝ) ^ 6 + 1 by norm_num)
    have hD_pos : 0 < A - B := by linarith
    have hBlow : Real.pi / 2 - ((10:ℝ) ^ 6 - 1)⁻¹ ≤ B := by
      have hxpos : (0:ℝ) < (10:ℝ) ^ 6 - 1 := by norm_num
      have hinv := Real.arctan_inv_of_pos hxpos
      have hle := arctan_le_self (((10:ℝ) ^ 6 - 1)⁻¹) (by positivity)
      rw [hinv] at hle
      rw [hBdef]
      linarith
    have hD_le : A - B ≤ ((10:ℝ) ^ 6 - 1)⁻¹ := by linarith
    -- the permeability factor is distinctly negative at such a field
    have hf_le : 1 / (1 + ((10:ℝ) ^ 6 - 1) ^ 2) - rodC.u0 ≤ -(11:ℝ) / 10 ^ 7 := by
      have h1 : (1:ℝ) / (1 + ((10:ℝ) ^ 6 - 1) ^ 2) ≤ 1 / 10 ^ 11 := by norm_num
      linarith
    have hf_neg : 1 / (1 + ((10:ℝ) ^ 6 - 1) ^ 2) - rodC.u0 ≤ 0 := by linarith
    have hAf : A * (1 / (1 + ((10:ℝ) ^ 6 - 1) ^ 2) - rodC.u0)
        ≤ -(33:ℝ) / (4 * 10 ^ 7) := by
      have h1 : A * (1 / (1 + ((10:ℝ) ^ 6 - 1) ^ 2) - rodC.u0)
          ≤ (3 / 4) * (1 / (1 + ((10:ℝ) ^ 6 - 1) ^ 2) - rodC.u0) :=
        mul_le_mul_of_nonpos_right hA34 hf_neg
      have h2 : (3 / 4 : ℝ) * (1 / (1 + ((10:ℝ) ^ 6 - 1) ^ 2) - rodC.u0)
          ≤ (3 / 4) * (-(11:ℝ) / 10 ^ 7) :=
        mul_le_mul_of_nonneg_left hf_le (by norm_num)
      calc A * (1 / (1 + ((10:ℝ) ^ 6 - 1) ^ 2) - rodC.u0)
          ≤ (3 / 4) * (1 / (1 + ((10:ℝ) ^ 6 - 1) ^ 2) - rodC.u0) := h1
        _ ≤ (3 / 4) * (-(11:ℝ) / 10 ^ 7) := h2
        _ = -(33:ℝ) / (4 * 10 ^ 7) := by ring
    have hAf_neg : A * (1 / (1 + ((10:ℝ) ^ 6 - 1) ^ 2) - rodC.u0) ≤ 0 := by
      linarith
    have hDinv : ((10:ℝ) ^ 6 - 1) ≤ (A - B)⁻¹ := by
      have h1 := inv_anti₀ hD_pos hD_le
      rwa [inv_inv] at h1
    have hquot : A * (1 / (1 + ((10:ℝ) ^ 6 - 1) ^ 2) - rodC.u0) / (A - B)
        ≤ A * (1 / (1 + ((10:ℝ) ^ 6 - 1) ^ 2) - rodC.u0) * ((10:ℝ) ^ 6 - 1) := by
      rw [div_eq_mul_inv]
      exact mul_le_mul_of_nonpos_left hDinv hAf_neg
    have hquot2 : A * (1 / (1 + ((10:ℝ) ^ 6 - 1) ^ 2) - rodC.u0) * ((10:ℝ) ^ 6 - 1)
        ≤ (-(33:ℝ) / (4 * 10 ^ 7)) * ((10:ℝ) ^ 6 - 1) :=
      mul_le_mul_of_nonneg_right hAf (by norm_num)
    have hlit : (-(33:ℝ) / (4 * 10 ^ 7)) * ((10:ℝ) ^ 6 - 1)
        ≤ -(8:ℝ) / 10 - 126 / 10 ^ 8 := by
      norm_num
    have hm_le : rodC.u0
        + A * (1 / (1 + ((10:ℝ) ^ 6 - 1) ^ 2) - rodC.u0) / (A - B) ≤ -(8:ℝ) / 10 := by
      linarith
    have hfinal : (rodC.u0
          + A * (1 / (1 + ((10:ℝ) ^ 6 - 1) ^ 2) - rodC.u0) / (A - B)) * 10 ^ 6
        ≤ -(8:ℝ) / 10 * 10 ^ 6 :=
      mul_le_mul_of_nonneg_right hm_le (by norm_num)
    linarith

/-- C1 (amended): a propagate call with zero field increment (applied field
equal to the current field) leaves the magnetization unchanged, and therefore
keeps it between the two limiting branch curves whenever it started between
them — for both the RK4 and the buffered Euler variant.  (For general field
sequences the invariant fails; see the counterexample.) -/
theorem c1_theorem (r : HysteresisRod)
    (h1 : r.b_field_bottom r.h_current ≤ r.b_current)
    (h2 : r.b_current ≤ r.b_field_top r.h_current) :
    ((r.propagate_and_save_magnetization r.h_current).b_field_bottom
        ((r.propagate_and_save_magnetization r.h_current).h_current)
      ≤ (r.propagate_and_save_magnetization r.h_current).b_current ∧
    (r.propagate_and_save_magnetization r.h_current).b_current
      ≤ (r.propagate_and_save_magnetization r.h_current).b_field_top
        ((r.propagate_and_save_magnetization r.h_current).h_current)) ∧
    ((r.propagate_magnetization r.h_current).b_field_bottom
        ((r.propagate_magnetization r.h_current).h_current)
      ≤ (r.propagate_magnetization r.h_current).b_current ∧
    (r.propagate_magnetization r.h_current).b_current
      ≤ (r.propagate_magnetization r.h_current).b_field_top
        ((r.propagate_magnetization r.h_current).h_current)) := by
  have hbe : (r.propagate_and_save_magnetization r.h_current).b_current
      = r.b_current := by
    simp only [HysteresisRod.propagate_and_save_magnetization]
    rw [if_pos (le_refl r.h_current)]
    ring
  have hbr : (r.propagate_magnetization r.h_current).b_current = r.b_current := by
    simp only [HysteresisRod.propagate_magnetization]
    rw [if_pos (le_refl r.h_current), sub_self]
    simp [rk4_general]
  have hhe : (r.propagate_and_save_magnetization r.h_current).h_current
      = r.h_current := rfl
  have hhr : (r.propagate_magnetization r.h_current).h_current = r.h_current := rfl
  have hfe1 : (r.propagate_and_save_magnetization r.h_current).b_field_bottom
      = r.b_field_bottom := rfl
  have hfe2 : (r.propagate_and_save_magnetization r.h_current).b_field_top
      = r.b_field_top := rfl
  have hfr1 : (r.propagate_magnetization r.h_current).b_field_bottom
      = r.b_field_bottom := rfl
  have hfr2 : (r.propagate_magnetization r.h_current).b_field_top
      = r.b_field_top := rfl
  rw [hbe, hbr, hhe, hhr, hfe1, hfe2, hfr1, hfr2]
  exact ⟨⟨h1, h2⟩, ⟨h1, h2⟩⟩

/-- C1 witness: the concrete rod `rodC` starts between its branch curves, and
a zero-increment propagate call keeps it there. -/
theorem c1_witness :
    (rodC.b_field_bottom rodC.h_current ≤ rodC.b_current ∧
      rodC.b_current ≤ rodC.b_field_top rodC.h_current) ∧
    (((rodC.propagate_and_save_magnetization rodC.h_current).b_field_bottom
        ((rodC.propagate_and_save_magnetization rodC.h_current).h_current)
      ≤ (rodC.propagate_and_save_magnetization rodC.h_current).b_current ∧
    (rodC.propagate_and_save_magnetization rodC.h_current).b_current
      ≤ (rodC.propagate_and_save_magnetization rodC.h_current).b_field_top
        ((rodC.propagate_and_save_magnetization rodC.h_current).h_current)) ∧
    ((rodC.propagate_magnetization rodC.h_current).b_field_bottom
        ((rodC.propagate_magnetization rodC.h_current).h_current)
      ≤ (rodC.propagate_magnetization rodC.h_current).b_current ∧
    (rodC.propagate_magnetization rodC.h_current).b_current
      ≤ (rodC.propagate_magnetization rodC.h_current).b_field_top
        ((rodC.propagate_magnetization rodC.h_current).h_current))) := by
  have e1 : rodC.h_current = 0 := rfl
  have e2 : rodC.b_current = 0 := rfl
  have hbot : rodC.b_field_bottom rodC.h_current ≤ rodC.b_current := by
    rw [e1, e2, rodC_bottom, show (0:ℝ) - 1 = -1 by norm_num, Real.arctan_neg,
      Real.arctan_one]
    linarith [Real.pi_pos]
  have htop : rodC.b_current ≤ rodC.b_field_top rodC.h_current := by
    rw [e1, e2, rodC_top, show (0:ℝ) + 1 = 1 by norm_num, Real.arctan_one]
    linarith [Real.pi_pos]
  exact ⟨⟨hbot, htop⟩, c1_theorem rodC hbot htop⟩
